import Mathlib

/-!
Shallow embedding of the `crumbs` memory CLI core (src/csv_store.rs and
src/main.rs): record model, newest-first ordering, prefix-based identifier
resolution, handoff mark/open, and short-id generation, together with proofs
of the specified properties.

Strings model Rust `String`; the Rust comparator `b.cmp(a)` used by
`sort_by` corresponds to the stable `List.mergeSort` with the boolean
relation `b.ts_utc ≤ a.ts_utc` (both orders are lexicographic on the
underlying character sequences).  Rust `usize` values (window sizes, limits,
lengths) are modelled as `Nat`.
-/

namespace Crumbs

/-- Memory row, from `MemoryRecord` in src/csv_store.rs. -/
structure MemoryRecord where
  id : String
  kind : String
  text : String
  ts_utc : String
  cwd : String
  git_branch : Option String
  git_head : Option String
deriving DecidableEq, Repr

/-- Handoff checkpoint row, from `HandoffRecord` in src/csv_store.rs. -/
structure HandoffRecord where
  id : String
  ts_utc : String
  from_memory_id : Option String
  to_memory_id : String
  suggested_window : Nat
  cwd : String
  git_branch : Option String
  git_head : Option String
deriving DecidableEq, Repr

/-- Lexicographic comparison of character sequences by code point: the
order `str::cmp` induces on Rust strings (UTF-8 byte order coincides with
code-point order). -/
def charListLt : List Char → List Char → Bool
  | _, [] => false
  | [], _ :: _ => true
  | a :: as, b :: bs =>
    if a.toNat < b.toNat then true
    else if b.toNat < a.toNat then false
    else charListLt as bs

/-- Rust `a < b` on strings (`Ord::cmp` is `Less`). -/
def strLt (a b : String) : Bool := charListLt a.data b.data

/-- Rust `a <= b` on strings (`Ord::cmp` is not `Greater`). -/
def strLe (a b : String) : Bool := !(strLt b a)

/-- The descending-timestamp comparator `|a, b| b.ts_utc.cmp(&a.ts_utc)`
of `sort_by`, as a boolean `le` relation for the stable merge sort,
parameterized over the timestamp accessor. -/
def tsDescRel (ts : α → String) (a b : α) : Bool := strLe (ts b) (ts a)

/-- The descending-timestamp comparator on memory rows. -/
def memTsDesc : MemoryRecord → MemoryRecord → Bool :=
  tsDescRel (fun m => m.ts_utc)

/-- The descending-timestamp comparator on handoff rows. -/
def hfTsDesc : HandoffRecord → HandoffRecord → Bool :=
  tsDescRel (fun h => h.ts_utc)

/-- Model of `rows.sort_by(|a, b| b.ts_utc.cmp(&a.ts_utc))` on memory rows:
stable sort, newest first. -/
def sortMemoriesDesc (l : List MemoryRecord) : List MemoryRecord :=
  l.mergeSort memTsDesc

/-- Model of `rows.sort_by(|a, b| b.ts_utc.cmp(&a.ts_utc))` on handoff rows. -/
def sortHandoffsDesc (l : List HandoffRecord) : List HandoffRecord :=
  l.mergeSort hfTsDesc

/-- Model of `latest_memory` from src/csv_store.rs: sort descending by timestamp,
take the first row. -/
def latest_memory (memories : List MemoryRecord) : Option MemoryRecord :=
  (sortMemoriesDesc memories).head?

/-- Model of `latest_handoff` from src/csv_store.rs. -/
def latest_handoff (handoffs : List HandoffRecord) : Option HandoffRecord :=
  (sortHandoffsDesc handoffs).head?

/-- Rust `str::to_ascii_lowercase`: lowercase the ASCII letters, leave every
other character unchanged (Lean's `Char.toLower` is exactly the ASCII map). -/
def asciiLower (s : String) : String := String.mk (s.data.map Char.toLower)

/-- Rust `str::starts_with(p)` on strings: the characters of `p` are a
prefix of the characters of `s`. -/
def strStartsWith (s p : String) : Bool := p.data.isPrefixOf s.data

/-- Rust `str::contains(char)`: some character of `s` equals `c`. -/
def strContains (s : String) (c : Char) : Bool := s.data.contains c

/-- Model of `build_prefix_candidates` from src/csv_store.rs: the lowercased input
always; when the input contains neither `-` nor `_`, also
`canonical ++ input` and `legacy ++ input`, lowercased. -/
def build_prefix_candidates (idInput canonical legacy : String) : List String :=
  if !(strContains idInput '-') && !(strContains idInput '_') then
    [asciiLower idInput, asciiLower (canonical ++ idInput),
      asciiLower (legacy ++ idInput)]
  else
    [asciiLower idInput]

/-- Model of `matches_any_prefix` from src/csv_store.rs: the lowercased id starts
with at least one candidate. -/
def matches_any_candidate (id : String) (candidates : List String) : Bool :=
  candidates.any (fun p => strStartsWith (asciiLower id) p)

/-- Outcome classification of the two resolver errors
(`anyhow::bail!` messages in src/csv_store.rs). -/
inductive ResolveError where
  | notFound
  | ambiguous
deriving DecidableEq, Repr

/-- The `.filter(|r| seen.insert(r.id.clone()))` step of the resolvers:
keep the first row for each key, where `seen` is the set of keys already
emitted. -/
def dedupFirstBy (key : α → String) : List α → List String → List α
  | [], _ => []
  | x :: xs, seen =>
    if key x ∈ seen then dedupFirstBy key xs seen
    else x :: dedupFirstBy key xs (key x :: seen)

/-- Shared body of `resolve_handoff` and `resolve_memory_id`
(src/csv_store.rs): filter by candidate prefixes, deduplicate by id,
fail on zero or several distinct ids, otherwise sort newest-first and
return the first row. -/
def resolveCore (key ts : α → String) (candidates : List String)
    (records : List α) : Except ResolveError α :=
  let ms := dedupFirstBy key
    (records.filter (fun r => matches_any_candidate (key r) candidates)) []
  if ms.isEmpty then .error .notFound
  else if 1 < ms.length then .error .ambiguous
  else
    match ms.mergeSort (tsDescRel ts) with
    | r :: _ => .ok r
    | [] => .error .notFound

/-- Model of `resolve_handoff` from src/csv_store.rs: canonical prefix `hf-`,
legacy `h_`; returns the resolved row. -/
def resolve_handoff (handoffs : List HandoffRecord) (idInput : String) :
    Except ResolveError HandoffRecord :=
  resolveCore (fun h => h.id) (fun h => h.ts_utc)
    (build_prefix_candidates idInput "hf-" "h_") handoffs

/-- Model of `resolve_memory_id` from src/csv_store.rs: canonical prefix `cr-`,
legacy `c_`; returns the resolved id. -/
def resolve_memory_id (memories : List MemoryRecord) (idInput : String) :
    Except ResolveError String :=
  (resolveCore (fun m => m.id) (fun m => m.ts_utc)
    (build_prefix_candidates idInput "cr-" "c_") memories).map (fun m => m.id)

/-- Model of `show_memory` from src/csv_store.rs: resolve the id, then return the
first stored row carrying it. -/
def show_memory (memories : List MemoryRecord) (idInput : String) :
    Except ResolveError MemoryRecord :=
  match resolve_memory_id memories idInput with
  | .error e => .error e
  | .ok id =>
    match memories.find? (fun m => m.id == id) with
    | some r => .ok r
    | none => .error .notFound

/-- The fatal errors of `handoff_mark` (src/main.rs, `anyhow::bail!` /
`.context` sites), in the order the code checks them. -/
inductive MarkError where
  | windowZero
  | noMemories
  | noNewMemories
deriving DecidableEq, Repr

/-- Model of `handoff_mark` from src/main.rs, lines 284-344, as a function of the
store contents and of the environment-supplied fields (fresh id, clock,
working dir, git metadata): validate the window, require a latest memory,
refuse a checkpoint whose target repeats the previous one, compute
`from_memory_id` (chain from the previous checkpoint, or window the first
checkpoint), and return the handoff row that gets appended. -/
def handoff_mark (memories : List MemoryRecord) (handoffs : List HandoffRecord)
    (window : Nat) (newId ts cwd : String)
    (git_branch git_head : Option String) : Except MarkError HandoffRecord :=
  if window == 0 then .error .windowZero
  else
    match latest_memory memories with
    | none => .error .noMemories
    | some latest =>
      match latest_handoff handoffs with
      | some prev =>
        if prev.to_memory_id == latest.id then .error .noNewMemories
        else
          .ok { id := newId, ts_utc := ts,
                from_memory_id := some prev.to_memory_id,
                to_memory_id := latest.id, suggested_window := window,
                cwd := cwd, git_branch := git_branch, git_head := git_head }
      | none =>
        let sorted := sortMemoriesDesc memories
        let from_memory_id :=
          if h : window < sorted.length then some (sorted.get ⟨window, h⟩).id
          else none
        .ok { id := newId, ts_utc := ts, from_memory_id := from_memory_id,
              to_memory_id := latest.id, suggested_window := window,
              cwd := cwd, git_branch := git_branch, git_head := git_head }

/-- The one fatal error of the slice computation in `handoff_open`: the
checkpoint's target memory is missing from the store. -/
inductive OpenError where
  | targetMissing
deriving DecidableEq, Repr

/-- What `handoff_open` computes and prints for a resolved checkpoint:
the slice size, the shown count, and the rows actually printed. -/
structure OpenResult where
  totalCount : Nat
  shownCount : Nat
  rows : List MemoryRecord
deriving DecidableEq, Repr

/-- The timestamp-range filter of `handoff_open` (src/main.rs lines
373-381): keep rows with `ts_utc <= to_ts` and, when a `from` timestamp
was resolved, `ts_utc > from_ts`; then sort newest-first. -/
def openSliceFiltered (memories : List MemoryRecord) (to_ts : String)
    (from_ts : Option String) : List MemoryRecord :=
  (memories.filter (fun m =>
      strLe m.ts_utc to_ts &&
      (match from_ts with
       | some ts => strLt ts m.ts_utc
       | none => true))).mergeSort memTsDesc

/-- The `from_ts` computation of `handoff_open` (src/main.rs lines
367-371): the timestamp of the first stored row carrying
`from_memory_id`, when both exist. -/
def openFromTs (memories : List MemoryRecord) (handoff : HandoffRecord) :
    Option String :=
  handoff.from_memory_id.bind (fun from_id =>
    (memories.find? (fun m => m.id == from_id)).map (fun m => m.ts_utc))

/-- Model of `handoff_open` from src/main.rs, lines 361-412, after checkpoint
resolution: find the `to` memory row (fatal if missing), resolve the
optional `from` timestamp (missing `from` row tolerated), filter and sort
the slice, and show `min(total, limit.unwrap_or(suggested_window))` rows. -/
def handoff_open (memories : List MemoryRecord) (handoff : HandoffRecord)
    (limit : Option Nat) : Except OpenError OpenResult :=
  match memories.find? (fun m => m.id == handoff.to_memory_id) with
  | none => .error .targetMissing
  | some toRec =>
    let from_ts := openFromTs memories handoff
    let slice := openSliceFiltered memories toRec.ts_utc from_ts
    let total := slice.length
    let show_limit := limit.getD handoff.suggested_window
    let shown := min total show_limit
    .ok { totalCount := total, shownCount := shown,
          rows := slice.take show_limit }

/-- The base-36 digit alphabet `DIGITS` of `random_base36` (src/main.rs). -/
def base36Digits : List Char := "0123456789abcdefghijklmnopqrstuvwxyz".data

/-- One call of `rng.gen_range(0..36)` indexed into `DIGITS`; the stream
value is reduced mod 36, modelling `gen_range`'s guarantee that the draw
lies in `[0, 36)`. -/
def digitOf (n : Nat) : Char := base36Digits.getD (n % 36) '0'

/-- Model of `random_base36` from src/main.rs: `len` fresh draws, starting at
position `pos` of the randomness stream. -/
def random_base36 (rng : Nat → Nat) (pos len : Nat) : String :=
  String.mk ((List.range len).map (fun i => digitOf (rng (pos + i))))

/-- The inner loop of `next_short_id`: up to `attempts` draws at the
current suffix length, returning the first candidate not in `used`. -/
def try_at_len (rng : Nat → Nat) (used : List String) (pfx : String) :
    Nat → Nat → Nat → Option String
  | 0, _, _ => none
  | attempts + 1, pos, len =>
    let candidate := pfx ++ "-" ++ random_base36 rng pos len
    if candidate ∈ used then try_at_len rng used pfx attempts (pos + len) len
    else some candidate

/-- The outer loop of `next_short_id` (src/main.rs): 64 attempts per
suffix length, then grow the length by one.  The Rust loop is unbounded;
`fuel` bounds the number of length escalations so the model is total, and
the termination theorem shows a computable fuel always suffices. -/
def next_short_id_fuel (rng : Nat → Nat) (used : List String) (pfx : String) :
    Nat → Nat → Nat → Option String
  | 0, _, _ => none
  | fuel + 1, pos, len =>
    match try_at_len rng used pfx 64 pos len with
    | some c => some c
    | none => next_short_id_fuel rng used pfx fuel (pos + 64 * len) (len + 1)

/-- The `used` set of `next_short_id`: every existing id, lowercased. -/
def usedLowered (existing_ids : List String) : List String :=
  existing_ids.map asciiLower

/-- An upper bound on the lengths of the strings in `used`. -/
def maxUsedLen (used : List String) : Nat :=
  (used.map String.length).foldr max 0

/-- Model of `INITIAL_LEN` from src/main.rs. -/
def INITIAL_LEN : Nat := 4

/-- Model of `next_short_id` from src/main.rs, run with enough fuel for the loop to
terminate (the termination theorem proves the fuel suffices for every
randomness stream). -/
def next_short_id (rng : Nat → Nat) (existing_ids : List String)
    (pfx : String) : Option String :=
  let used := usedLowered existing_ids
  next_short_id_fuel rng used pfx (maxUsedLen used + 1) 0 INITIAL_LEN

/-! ### Ordering facts about the lexicographic comparison and the
descending-timestamp sort -/

theorem char_toNat_inj {a b : Char} (h : a.toNat = b.toNat) : a = b :=
  Char.ext (UInt32.toNat.inj h)

theorem charListLt_nil_right (l : List Char) : charListLt l [] = false := by
  cases l <;> rfl

theorem charListLt_irrefl : ∀ l : List Char, charListLt l l = false
  | [] => rfl
  | a :: as => by
    simp only [charListLt]
    rw [if_neg (Nat.lt_irrefl _), if_neg (Nat.lt_irrefl _)]
    exact charListLt_irrefl as

theorem charListLt_trans : ∀ (a b c : List Char), charListLt a b = true →
    charListLt b c = true → charListLt a c = true
  | _, b, [], _, hbc => by
    rw [charListLt_nil_right] at hbc
    exact Bool.noConfusion hbc
  | [], b, _ :: _, _, _ => rfl
  | x :: xs, [], c, hab, _ => by
    rw [charListLt_nil_right] at hab
    exact Bool.noConfusion hab
  | x :: xs, y :: ys, z :: zs, hab, hbc => by
    simp only [charListLt] at hab hbc ⊢
    by_cases h1 : x.toNat < y.toNat
    · by_cases h2 : y.toNat < z.toNat
      · rw [if_pos (Nat.lt_trans h1 h2)]
      · rw [if_neg h2] at hbc
        by_cases h3 : z.toNat < y.toNat
        · rw [if_pos h3] at hbc
          exact Bool.noConfusion hbc
        · rw [if_pos (show x.toNat < z.toNat by omega)]
    · rw [if_neg h1] at hab
      by_cases h1' : y.toNat < x.toNat
      · rw [if_pos h1'] at hab
        exact Bool.noConfusion hab
      · rw [if_neg h1'] at hab
        by_cases h2 : y.toNat < z.toNat
        · rw [if_pos (show x.toNat < z.toNat by omega)]
        · rw [if_neg h2] at hbc
          by_cases h3 : z.toNat < y.toNat
          · rw [if_pos h3] at hbc
            exact Bool.noConfusion hbc
          · rw [if_neg h3] at hbc
            rw [if_neg (show ¬ x.toNat < z.toNat by omega),
              if_neg (show ¬ z.toNat < x.toNat by omega)]
            exact charListLt_trans xs ys zs hab hbc

theorem charListLt_asymm {a b : List Char} (h : charListLt a b = true) :
    charListLt b a = false := by
  cases hba : charListLt b a with
  | false => rfl
  | true =>
    have := charListLt_trans a b a h hba
    rw [charListLt_irrefl] at this
    exact Bool.noConfusion this

theorem charListLt_conn : ∀ (a b : List Char), charListLt a b = false →
    charListLt b a = false → a = b
  | [], [], _, _ => rfl
  | [], _ :: _, h1, _ => by
    simp [charListLt] at h1
  | _ :: _, [], _, h2 => by
    simp [charListLt] at h2
  | x :: xs, y :: ys, h1, h2 => by
    simp only [charListLt] at h1 h2
    by_cases hxy : x.toNat < y.toNat
    · rw [if_pos hxy] at h1
      exact Bool.noConfusion h1
    · rw [if_neg hxy] at h1
      by_cases hyx : y.toNat < x.toNat
      · rw [if_pos hyx] at h2
        exact Bool.noConfusion h2
      · rw [if_neg hyx] at h1
        rw [if_neg hyx, if_neg hxy] at h2
        obtain rfl : x = y := char_toNat_inj (by omega)
        rw [charListLt_conn xs ys h1 h2]

theorem strLe_refl (a : String) : strLe a a = true := by
  simp [strLe, strLt, charListLt_irrefl]

theorem strLe_trans {a b c : String} (hab : strLe a b = true)
    (hbc : strLe b c = true) : strLe a c = true := by
  simp only [strLe, strLt, Bool.not_eq_true'] at *
  cases hac : charListLt c.data a.data with
  | false => rfl
  | true =>
    by_cases hbc2 : charListLt b.data c.data = true
    · have hba := charListLt_trans b.data c.data a.data hbc2 hac
      rw [hba] at hab
      exact Bool.noConfusion hab
    · have heq : c.data = b.data :=
        charListLt_conn c.data b.data hbc
          (Bool.not_eq_true _ ▸ Bool.of_not_eq_true hbc2)
      rw [heq] at hac
      rw [hac] at hab
      exact Bool.noConfusion hab

theorem strLe_total (a b : String) : (strLe a b || strLe b a) = true := by
  simp only [strLe, strLt, Bool.or_eq_true, Bool.not_eq_true']
  by_cases h : charListLt b.data a.data = true
  · exact Or.inr (charListLt_asymm h)
  · exact Or.inl (Bool.of_not_eq_true h)

theorem tsDescRel_trans (ts : α → String) (a b c : α)
    (hab : tsDescRel ts a b = true) (hbc : tsDescRel ts b c = true) :
    tsDescRel ts a c = true := by
  simp only [tsDescRel] at *
  exact strLe_trans hbc hab

theorem tsDescRel_total (ts : α → String) (a b : α) :
    (tsDescRel ts a b || tsDescRel ts b a) = true := by
  simp only [tsDescRel]
  exact strLe_total (ts b) (ts a)

theorem mem_sortMemoriesDesc {m : MemoryRecord} {l : List MemoryRecord} :
    m ∈ sortMemoriesDesc l ↔ m ∈ l := by
  simp [sortMemoriesDesc]

theorem length_sortMemoriesDesc (l : List MemoryRecord) :
    (sortMemoriesDesc l).length = l.length := by
  simp [sortMemoriesDesc]

theorem sortMemoriesDesc_pairwise (l : List MemoryRecord) :
    (sortMemoriesDesc l).Pairwise
      (fun a b => strLe b.ts_utc a.ts_utc = true) := by
  have h := @List.sorted_mergeSort MemoryRecord memTsDesc
    (fun a b c => tsDescRel_trans (fun m : MemoryRecord => m.ts_utc) a b c)
    (fun a b => tsDescRel_total (fun m : MemoryRecord => m.ts_utc) a b) l
  exact List.Pairwise.imp
    (fun hab => by simpa [memTsDesc, tsDescRel] using hab) h

theorem latest_memory_eq_none_iff (l : List MemoryRecord) :
    latest_memory l = none ↔ l = [] := by
  unfold latest_memory
  rw [List.head?_eq_none_iff]
  constructor
  · intro h
    have := length_sortMemoriesDesc l
    rw [h] at this
    exact List.length_eq_zero.mp this.symm
  · rintro rfl
    simp [sortMemoriesDesc]

theorem latest_memory_max {l : List MemoryRecord} {m : MemoryRecord}
    (h : latest_memory l = some m) :
    m ∈ l ∧ ∀ x ∈ l, strLe x.ts_utc m.ts_utc = true := by
  unfold latest_memory at h
  obtain ⟨t, ht⟩ : ∃ t, sortMemoriesDesc l = m :: t := by
    cases hs : sortMemoriesDesc l with
    | nil => rw [hs] at h; simp at h
    | cons a t => rw [hs] at h; simp at h; exact ⟨t, by rw [h]⟩
  constructor
  · have : m ∈ sortMemoriesDesc l := by rw [ht]; exact List.mem_cons_self m t
    exact mem_sortMemoriesDesc.mp this
  · intro x hx
    have hx' : x ∈ sortMemoriesDesc l := mem_sortMemoriesDesc.mpr hx
    rw [ht] at hx'
    rcases List.mem_cons.mp hx' with rfl | hx'
    · exact strLe_refl _
    · have hp := sortMemoriesDesc_pairwise l
      rw [ht] at hp
      exact (List.pairwise_cons.mp hp).1 x hx'

/-! ### Facts about the first-kept deduplication step -/

theorem dedupFirstBy_eq_nil_iff (key : α → String) (l : List α)
    (seen : List String) :
    dedupFirstBy key l seen = [] ↔ ∀ x ∈ l, key x ∈ seen := by
  induction l generalizing seen with
  | nil => simp [dedupFirstBy]
  | cons x xs ih =>
    by_cases hx : key x ∈ seen
    · simp only [dedupFirstBy, if_pos hx]
      rw [ih]
      constructor
      · intro h y hy
        rcases List.mem_cons.mp hy with rfl | hy
        · exact hx
        · exact h y hy
      · intro h y hy
        exact h y (List.mem_cons_of_mem x hy)
    · simp only [dedupFirstBy, if_neg hx]
      constructor
      · intro h; cases h
      · intro h
        exact absurd (h x (List.mem_cons_self x xs)) hx

theorem dedupFirstBy_mem (key : α → String) {l : List α}
    {seen : List String} {x : α} (hx : x ∈ dedupFirstBy key l seen) :
    x ∈ l ∧ key x ∉ seen := by
  induction l generalizing seen with
  | nil => simp [dedupFirstBy] at hx
  | cons y ys ih =>
    by_cases hy : key y ∈ seen
    · simp only [dedupFirstBy, if_pos hy] at hx
      obtain ⟨h1, h2⟩ := ih hx
      exact ⟨List.mem_cons_of_mem y h1, h2⟩
    · simp only [dedupFirstBy, if_neg hy] at hx
      rcases List.mem_cons.mp hx with rfl | hx
      · exact ⟨List.mem_cons_self x ys, hy⟩
      · obtain ⟨h1, h2⟩ := ih hx
        refine ⟨List.mem_cons_of_mem y h1, fun hc => h2 ?_⟩
        exact List.mem_cons_of_mem (key y) hc

theorem dedupFirstBy_len_le_one (key : α → String) (l : List α)
    (seen : List String)
    (hlen : (dedupFirstBy key l seen).length ≤ 1) :
    ∀ x ∈ l, ∀ y ∈ l, key x ∉ seen → key y ∉ seen → key x = key y := by
  induction l generalizing seen with
  | nil => intro x hx; simp at hx
  | cons z zs ih =>
    by_cases hz : key z ∈ seen
    · simp only [dedupFirstBy, if_pos hz] at hlen
      intro x hx y hy hxs hys
      rcases List.mem_cons.mp hx with rfl | hx
      · exact absurd hz hxs
      rcases List.mem_cons.mp hy with rfl | hy
      · exact absurd hz hys
      exact ih seen hlen x hx y hy hxs hys
    · simp only [dedupFirstBy, if_neg hz, List.length_cons] at hlen
      have hrest : dedupFirstBy key zs (key z :: seen) = [] := by
        have : (dedupFirstBy key zs (key z :: seen)).length = 0 := by omega
        exact List.length_eq_zero.mp this
      have hall := (dedupFirstBy_eq_nil_iff key zs (key z :: seen)).mp hrest
      have hkey : ∀ w ∈ z :: zs, key w ∉ seen → key w = key z := by
        intro w hw hws
        rcases List.mem_cons.mp hw with rfl | hw
        · rfl
        · rcases List.mem_cons.mp (hall w hw) with h | h
          · exact h
          · exact absurd h hws
      intro x hx y hy hxs hys
      rw [hkey x hx hxs, hkey y hy hys]

theorem dedupFirstBy_len_le_one_of_same (key : α → String) (l : List α)
    (seen : List String)
    (hsame : ∀ x ∈ l, ∀ y ∈ l, key x ∉ seen → key y ∉ seen → key x = key y) :
    (dedupFirstBy key l seen).length ≤ 1 := by
  induction l generalizing seen with
  | nil => simp [dedupFirstBy]
  | cons z zs ih =>
    by_cases hz : key z ∈ seen
    · simp only [dedupFirstBy, if_pos hz]
      refine ih seen ?_
      intro x hx y hy
      exact hsame x (List.mem_cons_of_mem z hx) y (List.mem_cons_of_mem z hy)
    · simp only [dedupFirstBy, if_neg hz, List.length_cons]
      have hrest : dedupFirstBy key zs (key z :: seen) = [] := by
        rw [dedupFirstBy_eq_nil_iff]
        intro w hw
        by_cases hws : key w ∈ seen
        · exact List.mem_cons_of_mem (key z) hws
        · have := hsame w (List.mem_cons_of_mem z hw) z
            (List.mem_cons_self z zs) hws hz
          rw [this]
          exact List.mem_cons_self (key z) seen
      rw [hrest]
      simp

theorem dedupFirstBy_nil_seen_eq_nil_iff (key : α → String) (l : List α) :
    dedupFirstBy key l [] = [] ↔ l = [] := by
  rw [dedupFirstBy_eq_nil_iff]
  constructor
  · intro h
    cases l with
    | nil => rfl
    | cons x xs => exact absurd (h x (List.mem_cons_self x xs)) (by simp)
  · rintro rfl
    simp

theorem dedupFirstBy_cons_nil (key : α → String) (x : α) (xs : List α) :
    dedupFirstBy key (x :: xs) [] = x :: dedupFirstBy key xs [key x] := by
  simp [dedupFirstBy]

theorem find?_eq_head_filter (p : α → Bool) (l : List α) :
    l.find? p = (l.filter p).head? := by
  induction l with
  | nil => rfl
  | cons x xs ih =>
    by_cases h : p x
    · rw [List.find?_cons_of_pos _ h, List.filter_cons_of_pos h]
      rfl
    · rw [List.find?_cons_of_neg _ h, List.filter_cons_of_neg h, ih]

/-! ### Characterization of the shared resolver body -/

theorem resolveCore_eq (key ts : α → String) (candidates : List String)
    (l : List α) :
    resolveCore key ts candidates l =
      match dedupFirstBy key
          (l.filter (fun r => matches_any_candidate (key r) candidates)) [] with
      | [] => .error .notFound
      | [m] => .ok m
      | _ :: _ :: _ => .error .ambiguous := by
  unfold resolveCore
  rcases h : dedupFirstBy key
      (l.filter (fun r => matches_any_candidate (key r) candidates)) []
    with _ | ⟨a, _ | ⟨b, t⟩⟩
  · simp
  · simp
  · have hlen : 1 < (a :: b :: t).length := by
      simp only [List.length_cons]
      omega
    simp [hlen]

theorem resolveCore_ok_shape {key ts : α → String} {candidates : List String}
    {l : List α} {r : α}
    (h : resolveCore key ts candidates l = .ok r) :
    dedupFirstBy key
      (l.filter (fun x => matches_any_candidate (key x) candidates)) [] =
      [r] := by
  rw [resolveCore_eq] at h
  rcases hd : dedupFirstBy key
      (l.filter (fun x => matches_any_candidate (key x) candidates)) []
    with _ | ⟨a, _ | ⟨b, t⟩⟩ <;> rw [hd] at h <;> simp at h
  rw [h]

theorem resolveCore_ok_mem {key ts : α → String} {candidates : List String}
    {l : List α} {r : α}
    (h : resolveCore key ts candidates l = .ok r) :
    r ∈ l ∧ matches_any_candidate (key r) candidates = true := by
  have hd := resolveCore_ok_shape h
  have hr : r ∈ dedupFirstBy key
      (l.filter (fun x => matches_any_candidate (key x) candidates)) [] := by
    rw [hd]; exact List.mem_singleton_self r
  have := (dedupFirstBy_mem _ hr).1
  exact ⟨(List.mem_filter.mp this).1, (List.mem_filter.mp this).2⟩

theorem resolveCore_ok_find {key ts : α → String} {candidates : List String}
    {l : List α} {r : α}
    (h : resolveCore key ts candidates l = .ok r) :
    l.find? (fun x => matches_any_candidate (key x) candidates) = some r := by
  have hd := resolveCore_ok_shape h
  rw [find?_eq_head_filter]
  cases hf : l.filter (fun x => matches_any_candidate (key x) candidates) with
  | nil => rw [hf] at hd; simp [dedupFirstBy] at hd
  | cons x xs =>
    rw [hf, dedupFirstBy_cons_nil] at hd
    have : x = r := (List.cons_eq_cons.mp hd).1
    rw [this]
    rfl

theorem resolveCore_notFound_iff (key ts : α → String)
    (candidates : List String) (l : List α) :
    resolveCore key ts candidates l = .error .notFound ↔
      ∀ r ∈ l, matches_any_candidate (key r) candidates = false := by
  rw [resolveCore_eq]
  rcases hd : dedupFirstBy key
      (l.filter (fun r => matches_any_candidate (key r) candidates)) []
    with _ | ⟨a, _ | ⟨b, t⟩⟩
  · simp only [iff_true_intro rfl, true_iff]
    have hf := (dedupFirstBy_nil_seen_eq_nil_iff _ _).mp hd
    intro r hr
    by_contra hc
    have : r ∈ l.filter (fun r => matches_any_candidate (key r) candidates) :=
      List.mem_filter.mpr ⟨hr, by simpa using hc⟩
    rw [hf] at this
    simp at this
  · simp only
    constructor
    · intro h; cases h
    · intro h
      have ha : a ∈ dedupFirstBy key
          (l.filter (fun r => matches_any_candidate (key r) candidates)) [] := by
        rw [hd]; exact List.mem_singleton_self a
      have hmem := (dedupFirstBy_mem _ ha).1
      have := List.mem_filter.mp hmem
      have hfalse := h a this.1
      rw [this.2] at hfalse
      cases hfalse
  · simp only
    constructor
    · intro h; cases h
    · intro h
      have ha : a ∈ dedupFirstBy key
          (l.filter (fun r => matches_any_candidate (key r) candidates)) [] := by
        rw [hd]; exact List.mem_cons_self a _
      have hmem := (dedupFirstBy_mem _ ha).1
      have := List.mem_filter.mp hmem
      have hfalse := h a this.1
      rw [this.2] at hfalse
      cases hfalse

theorem resolveCore_ambiguous_iff (key ts : α → String)
    (candidates : List String) (l : List α) :
    resolveCore key ts candidates l = .error .ambiguous ↔
      ∃ r1 ∈ l, ∃ r2 ∈ l,
        matches_any_candidate (key r1) candidates = true ∧
        matches_any_candidate (key r2) candidates = true ∧
        key r1 ≠ key r2 := by
  rw [resolveCore_eq]
  rcases hd : dedupFirstBy key
      (l.filter (fun r => matches_any_candidate (key r) candidates)) []
    with _ | ⟨a, _ | ⟨b, t⟩⟩
  · simp only
    constructor
    · intro h; cases h
    · rintro ⟨r1, hr1, r2, hr2, hm1, hm2, hne⟩
      have hf := (dedupFirstBy_nil_seen_eq_nil_iff _ _).mp hd
      have : r1 ∈ l.filter (fun r => matches_any_candidate (key r) candidates) :=
        List.mem_filter.mpr ⟨hr1, hm1⟩
      rw [hf] at this
      simp at this
  · simp only
    constructor
    · intro h; cases h
    · rintro ⟨r1, hr1, r2, hr2, hm1, hm2, hne⟩
      have hsame := dedupFirstBy_len_le_one key
        (l.filter (fun r => matches_any_candidate (key r) candidates)) []
        (by rw [hd]; simp)
      refine absurd (hsame r1 ?_ r2 ?_ (by simp) (by simp)) hne
      · exact List.mem_filter.mpr ⟨hr1, hm1⟩
      · exact List.mem_filter.mpr ⟨hr2, hm2⟩
  · simp only [true_iff, iff_true_intro rfl]
    by_contra hc
    push_neg at hc
    have hsame : ∀ x ∈ l.filter
          (fun r => matches_any_candidate (key r) candidates), ∀ y ∈ l.filter
          (fun r => matches_any_candidate (key r) candidates),
        key x ∉ ([] : List String) → key y ∉ ([] : List String) →
        key x = key y := by
      intro x hx y hy _ _
      obtain ⟨hx1, hx2⟩ := List.mem_filter.mp hx
      obtain ⟨hy1, hy2⟩ := List.mem_filter.mp hy
      by_contra hne
      exact hne (hc x hx1 y hy1 hx2 hy2)
    have := dedupFirstBy_len_le_one_of_same key
      (l.filter (fun r => matches_any_candidate (key r) candidates)) [] hsame
    rw [hd] at this
    simp at this

theorem resolveCore_exists_ok_iff (key ts : α → String)
    (candidates : List String) (l : List α) :
    (∃ r, resolveCore key ts candidates l = .ok r) ↔
      (∃ r ∈ l, matches_any_candidate (key r) candidates = true) ∧
      ∀ r1 ∈ l, ∀ r2 ∈ l,
        matches_any_candidate (key r1) candidates = true →
        matches_any_candidate (key r2) candidates = true →
        key r1 = key r2 := by
  constructor
  · rintro ⟨r, hr⟩
    have hd := resolveCore_ok_shape hr
    have hmem := resolveCore_ok_mem hr
    refine ⟨⟨r, hmem.1, hmem.2⟩, ?_⟩
    intro r1 hr1 r2 hr2 hm1 hm2
    have hsame := dedupFirstBy_len_le_one key
      (l.filter (fun x => matches_any_candidate (key x) candidates)) []
      (by rw [hd]; simp)
    exact hsame r1 (List.mem_filter.mpr ⟨hr1, hm1⟩)
      r2 (List.mem_filter.mpr ⟨hr2, hm2⟩) (by simp) (by simp)
  · rintro ⟨⟨r, hr, hm⟩, hsame⟩
    have hsamef : ∀ x ∈ l.filter
          (fun x => matches_any_candidate (key x) candidates), ∀ y ∈ l.filter
          (fun x => matches_any_candidate (key x) candidates),
        key x ∉ ([] : List String) → key y ∉ ([] : List String) →
        key x = key y := by
      intro x hx y hy _ _
      obtain ⟨hx1, hx2⟩ := List.mem_filter.mp hx
      obtain ⟨hy1, hy2⟩ := List.mem_filter.mp hy
      exact hsame x hx1 y hy1 hx2 hy2
    have hlen := dedupFirstBy_len_le_one_of_same key
      (l.filter (fun x => matches_any_candidate (key x) candidates)) [] hsamef
    have hne : dedupFirstBy key
        (l.filter (fun x => matches_any_candidate (key x) candidates)) [] ≠
        [] := by
      rw [Ne, dedupFirstBy_nil_seen_eq_nil_iff]
      intro hf
      have : r ∈ l.filter (fun x => matches_any_candidate (key x) candidates) :=
        List.mem_filter.mpr ⟨hr, hm⟩
      rw [hf] at this
      simp at this
    rcases hd : dedupFirstBy key
        (l.filter (fun x => matches_any_candidate (key x) candidates)) []
      with _ | ⟨a, _ | ⟨b, t⟩⟩
    · exact absurd hd hne
    · exact ⟨a, by rw [resolveCore_eq, hd]⟩
    · rw [hd] at hlen
      simp at hlen

/-! ### Facts about short-id generation -/

theorem length_random_base36 (rng : Nat → Nat) (pos len : Nat) :
    (random_base36 rng pos len).length = len := by
  simp [random_base36, String.length]

theorem length_candidate (rng : Nat → Nat) (pfx : String) (pos len : Nat) :
    (pfx ++ "-" ++ random_base36 rng pos len).length =
      pfx.length + 1 + len := by
  have h1 : ("-" : String).length = 1 := rfl
  simp [String.length_append, length_random_base36, h1]

theorem le_maxUsedLen {s : String} {used : List String} (h : s ∈ used) :
    s.length ≤ maxUsedLen used := by
  induction used with
  | nil => simp at h
  | cons x xs ih =>
    rcases List.mem_cons.mp h with rfl | h
    · simp only [maxUsedLen, List.map_cons, List.foldr_cons]
      exact le_max_left _ _
    · calc s.length ≤ maxUsedLen xs := ih h
        _ ≤ max x.length (maxUsedLen xs) := le_max_right _ _
        _ = maxUsedLen (x :: xs) := by simp [maxUsedLen]

theorem not_mem_used_of_long {c : String} {used : List String}
    (h : maxUsedLen used < c.length) : c ∉ used := by
  intro hc
  exact absurd (le_maxUsedLen hc) (not_le.mpr h)

theorem try_at_len_first_fresh (rng : Nat → Nat) (used : List String)
    (pfx : String) (attempts pos len : Nat)
    (h : pfx ++ "-" ++ random_base36 rng pos len ∉ used) :
    try_at_len rng used pfx (attempts + 1) pos len =
      some (pfx ++ "-" ++ random_base36 rng pos len) := by
  simp [try_at_len, h]

theorem try_at_len_some {rng : Nat → Nat} {used : List String} {pfx : String}
    {attempts pos len : Nat} {c : String}
    (h : try_at_len rng used pfx attempts pos len = some c) :
    (∃ q, c = pfx ++ "-" ++ random_base36 rng q len) ∧ c ∉ used := by
  induction attempts generalizing pos with
  | zero => simp [try_at_len] at h
  | succ a ih =>
    rw [try_at_len] at h
    split at h
    · exact ih h
    · rename_i hfresh
      obtain rfl : c = pfx ++ "-" ++ random_base36 rng pos len := by
        simpa using h.symm
      exact ⟨⟨pos, rfl⟩, hfresh⟩

theorem next_short_id_fuel_some {rng : Nat → Nat} {used : List String}
    {pfx : String} {fuel pos len : Nat} {c : String}
    (h : next_short_id_fuel rng used pfx fuel pos len = some c) :
    (∃ q n, len ≤ n ∧ c = pfx ++ "-" ++ random_base36 rng q n) ∧
      c ∉ used := by
  induction fuel generalizing pos len with
  | zero => simp [next_short_id_fuel] at h
  | succ f ih =>
    rw [next_short_id_fuel] at h
    split at h
    · rename_i c' hc'
      obtain rfl : c' = c := by simpa using h
      obtain ⟨⟨q, hq⟩, hfresh⟩ := try_at_len_some hc'
      exact ⟨⟨q, len, le_refl _, hq⟩, hfresh⟩
    · obtain ⟨⟨q, n, hn, hq⟩, hfresh⟩ := ih h
      exact ⟨⟨q, n, le_trans (Nat.le_succ _) hn, hq⟩, hfresh⟩

theorem next_short_id_fuel_isSome (rng : Nat → Nat) (used : List String)
    (pfx : String) :
    ∀ fuel len pos, maxUsedLen used < pfx.length + 1 + len + fuel →
      (next_short_id_fuel rng used pfx (fuel + 1) pos len).isSome = true := by
  intro fuel
  induction fuel with
  | zero =>
    intro len pos hlt
    have hfresh : pfx ++ "-" ++ random_base36 rng pos len ∉ used := by
      apply not_mem_used_of_long
      rw [length_candidate]
      omega
    rw [next_short_id_fuel, try_at_len_first_fresh rng used pfx 63 pos len
      hfresh]
    rfl
  | succ f ih =>
    intro len pos hlt
    rw [next_short_id_fuel]
    cases htry : try_at_len rng used pfx 64 pos len with
    | some c => rfl
    | none =>
      exact ih (len + 1) (pos + 64 * len) (by omega)

theorem next_short_id_isSome (rng : Nat → Nat) (existing_ids : List String)
    (pfx : String) :
    (next_short_id rng existing_ids pfx).isSome = true := by
  unfold next_short_id INITIAL_LEN
  exact next_short_id_fuel_isSome rng (usedLowered existing_ids) pfx
    (maxUsedLen (usedLowered existing_ids)) 4 0 (by omega)

theorem digitOf_mem (n : Nat) : digitOf n ∈ base36Digits := by
  unfold digitOf
  have h36 : n % 36 < base36Digits.length := by
    have : base36Digits.length = 36 := by decide
    omega
  rw [List.getD_eq_getElem base36Digits '0' h36]
  exact List.getElem_mem h36

theorem random_base36_chars (rng : Nat → Nat) (pos len : Nat) :
    ∀ ch ∈ (random_base36 rng pos len).data, ch ∈ base36Digits := by
  intro ch hch
  simp only [random_base36, List.mem_map] at hch
  obtain ⟨i, _, rfl⟩ := hch
  exact digitOf_mem _

theorem toLower_base36 : ∀ ch ∈ base36Digits, Char.toLower ch = ch := by
  decide

theorem asciiLower_append (a b : String) :
    asciiLower (a ++ b) = asciiLower a ++ asciiLower b := by
  simp only [asciiLower, String.data_append, List.map_append]
  rfl

theorem asciiLower_random_base36 (rng : Nat → Nat) (pos len : Nat) :
    asciiLower (random_base36 rng pos len) = random_base36 rng pos len := by
  unfold asciiLower
  congr 1
  calc List.map Char.toLower (random_base36 rng pos len).data
      = List.map id (random_base36 rng pos len).data :=
        List.map_congr_left (fun ch hch =>
          toLower_base36 ch (random_base36_chars rng pos len ch hch))
    _ = (random_base36 rng pos len).data := List.map_id _

/-! ### Small helpers used by the claim theorems and their witnesses -/

theorem except_map_error_iff (f : α → β) (x : Except ResolveError α)
    (e : ResolveError) : x.map f = .error e ↔ x = .error e := by
  cases x <;> simp [Except.map]

theorem except_map_ok_iff (f : α → β) (x : Except ResolveError α) (b : β) :
    x.map f = .ok b ↔ ∃ a, x = .ok a ∧ f a = b := by
  cases x <;> simp [Except.map]

theorem sortMemoriesDesc_of_sorted {l : List MemoryRecord}
    (h : l.Pairwise (fun a b => memTsDesc a b = true)) :
    sortMemoriesDesc l = l :=
  List.mergeSort_of_sorted h

theorem sortHandoffsDesc_of_sorted {l : List HandoffRecord}
    (h : l.Pairwise (fun a b => hfTsDesc a b = true)) :
    sortHandoffsDesc l = l :=
  List.mergeSort_of_sorted h

/-- A concrete memory row used by witnesses and counterexamples. -/
def sampleMemory (i t : String) : MemoryRecord :=
  { id := i, kind := "what", text := "note", ts_utc := t, cwd := ".",
    git_branch := none, git_head := none }

/-- A concrete handoff row used by witnesses and counterexamples. -/
def sampleHandoff (i t : String) (fm : Option String) (toId : String)
    (w : Nat) : HandoffRecord :=
  { id := i, ts_utc := t, from_memory_id := fm, to_memory_id := toId,
    suggested_window := w, cwd := ".", git_branch := none, git_head := none }

/-! ### Claims -/

/-- C4: for every input string, the resolver's candidate-prefix set consists
of the lowercased input, plus, exactly when the input contains neither `-`
nor `_`, the lowercased concatenations canonical-prefix + input and
legacy-prefix + input; a record id matches iff its lowercased form starts
with at least one candidate. -/
theorem claim_C4 (input canonical legacy id : String) :
    (∀ c, c ∈ build_prefix_candidates input canonical legacy ↔
      (c = asciiLower input ∨
        ((¬ strContains input '-' ∧ ¬ strContains input '_') ∧
          (c = asciiLower (canonical ++ input) ∨
           c = asciiLower (legacy ++ input))))) ∧
    (matches_any_candidate id (build_prefix_candidates input canonical legacy)
        = true ↔
      ∃ c ∈ build_prefix_candidates input canonical legacy,
        strStartsWith (asciiLower id) c = true) := by
  constructor
  · intro c
    unfold build_prefix_candidates
    cases h1 : strContains input '-' <;> cases h2 : strContains input '_' <;>
      simp [h1, h2]
  · simp [matches_any_candidate, List.any_eq_true]

/-- C4 witness: concrete evaluation of the candidate set for a bare suffix
and the match of a full id against it. -/
theorem claim_C4_witness :
    ("cr-ab12" : String) ∈ build_prefix_candidates "ab1" "cr-" "c_" ∨
      matches_any_candidate "cr-ab12" (build_prefix_candidates "ab1" "cr-" "c_")
        = true := by
  have h := claim_C4 "ab1" "cr-" "c_" "cr-ab12"
  exact Or.inr (h.2.mpr ⟨asciiLower ("cr-" ++ "ab1"),
    (h.1 (asciiLower ("cr-" ++ "ab1"))).mpr
      (Or.inr ⟨by decide, Or.inl rfl⟩), by decide⟩)

/-- C3: for every record list and input, resolution fails with not-found
when zero records match, fails with ambiguous when more than one distinct
id matches, and returns a matching record exactly when exactly one distinct
id matches — for both the handoff resolver and the memory resolver. -/
theorem claim_C3 (handoffs : List HandoffRecord)
    (memories : List MemoryRecord) (input : String) :
    (resolve_handoff handoffs input = .error .notFound ↔
      ∀ h ∈ handoffs, matches_any_candidate h.id
        (build_prefix_candidates input "hf-" "h_") = false) ∧
    (resolve_handoff handoffs input = .error .ambiguous ↔
      ∃ h1 ∈ handoffs, ∃ h2 ∈ handoffs,
        matches_any_candidate h1.id
          (build_prefix_candidates input "hf-" "h_") = true ∧
        matches_any_candidate h2.id
          (build_prefix_candidates input "hf-" "h_") = true ∧
        h1.id ≠ h2.id) ∧
    ((∃ r, resolve_handoff handoffs input = .ok r) ↔
      (∃ h ∈ handoffs, matches_any_candidate h.id
        (build_prefix_candidates input "hf-" "h_") = true) ∧
      ∀ h1 ∈ handoffs, ∀ h2 ∈ handoffs,
        matches_any_candidate h1.id
          (build_prefix_candidates input "hf-" "h_") = true →
        matches_any_candidate h2.id
          (build_prefix_candidates input "hf-" "h_") = true →
        h1.id = h2.id) ∧
    (∀ r, resolve_handoff handoffs input = .ok r →
      r ∈ handoffs ∧ matches_any_candidate r.id
        (build_prefix_candidates input "hf-" "h_") = true) ∧
    (resolve_memory_id memories input = .error .notFound ↔
      ∀ m ∈ memories, matches_any_candidate m.id
        (build_prefix_candidates input "cr-" "c_") = false) ∧
    (resolve_memory_id memories input = .error .ambiguous ↔
      ∃ m1 ∈ memories, ∃ m2 ∈ memories,
        matches_any_candidate m1.id
          (build_prefix_candidates input "cr-" "c_") = true ∧
        matches_any_candidate m2.id
          (build_prefix_candidates input "cr-" "c_") = true ∧
        m1.id ≠ m2.id) ∧
    ((∃ i, resolve_memory_id memories input = .ok i) ↔
      (∃ m ∈ memories, matches_any_candidate m.id
        (build_prefix_candidates input "cr-" "c_") = true) ∧
      ∀ m1 ∈ memories, ∀ m2 ∈ memories,
        matches_any_candidate m1.id
          (build_prefix_candidates input "cr-" "c_") = true →
        matches_any_candidate m2.id
          (build_prefix_candidates input "cr-" "c_") = true →
        m1.id = m2.id) ∧
    (∀ i, resolve_memory_id memories input = .ok i →
      ∃ m ∈ memories, m.id = i ∧ matches_any_candidate m.id
        (build_prefix_candidates input "cr-" "c_") = true) := by
  refine ⟨?_, ?_, ?_, ?_, ?_, ?_, ?_, ?_⟩
  · exact resolveCore_notFound_iff _ _ _ handoffs
  · exact resolveCore_ambiguous_iff _ _ _ handoffs
  · exact resolveCore_exists_ok_iff _ _ _ handoffs
  · intro r hr
    exact resolveCore_ok_mem hr
  · rw [resolve_memory_id, except_map_error_iff]
    exact resolveCore_notFound_iff _ _ _ memories
  · rw [resolve_memory_id, except_map_error_iff]
    exact resolveCore_ambiguous_iff _ _ _ memories
  · rw [← resolveCore_exists_ok_iff (fun m : MemoryRecord => m.id)
      (fun m => m.ts_utc) (build_prefix_candidates input "cr-" "c_") memories]
    constructor
    · rintro ⟨i, hi⟩
      rw [resolve_memory_id, except_map_ok_iff] at hi
      obtain ⟨a, ha, _⟩ := hi
      exact ⟨a, ha⟩
    · rintro ⟨r, hr⟩
      refine ⟨r.id, ?_⟩
      rw [resolve_memory_id, except_map_ok_iff]
      exact ⟨r, hr, rfl⟩
  · intro i hi
    rw [resolve_memory_id, except_map_ok_iff] at hi
    obtain ⟨a, ha, rfl⟩ := hi
    have := resolveCore_ok_mem ha
    exact ⟨a, this.1, rfl, this.2⟩

/-- C3 witness: the spec's own example, `cr-ab12` and `cr-ab13`:
`ab1` is ambiguous. -/
theorem claim_C3_witness :
    resolve_memory_id
      [sampleMemory "cr-ab12" "1", sampleMemory "cr-ab13" "2"] "ab1" =
      .error .ambiguous := by
  have h := claim_C3 []
    [sampleMemory "cr-ab12" "1", sampleMemory "cr-ab13" "2"] "ab1"
  exact h.2.2.2.2.2.1.mpr
    ⟨sampleMemory "cr-ab12" "1", by decide, sampleMemory "cr-ab13" "2",
      by decide, by decide, by decide, by decide⟩

/-- C5 counterexample: two stored handoff rows share the id `hf-x1`; the
resolver returns the first stored row (timestamp "1"), which is strictly
older than the other row (timestamp "2"), so it does not return the most
recent row by timestamp. -/
theorem claim_C5_counterexample :
    resolve_handoff [sampleHandoff "hf-x1" "1" none "cr-a" 5,
        sampleHandoff "hf-x1" "2" none "cr-a" 5] "hf-x1" =
      .ok (sampleHandoff "hf-x1" "1" none "cr-a" 5) ∧
    strLt (sampleHandoff "hf-x1" "1" none "cr-a" 5).ts_utc
      (sampleHandoff "hf-x1" "2" none "cr-a" 5).ts_utc = true ∧
    (sampleHandoff "hf-x1" "1" none "cr-a" 5).id =
      (sampleHandoff "hf-x1" "2" none "cr-a" 5).id ∧
    sampleHandoff "hf-x1" "1" none "cr-a" 5 ≠
      sampleHandoff "hf-x1" "2" none "cr-a" 5 := by
  refine ⟨?_, ?_, rfl, ?_⟩
  · unfold resolve_handoff
    rw [resolveCore_eq]
    rfl
  · decide
  · intro hc
    have h12 : ("1" : String) = "2" := congrArg HandoffRecord.ts_utc hc
    exact absurd h12 (by decide)

/-- C5 amended: when resolution succeeds, the returned row is the first
stored row matching the candidate prefixes (append order) — the
deduplication step keeps only the first row per id, so the most-recent
sort never selects among duplicate rows. -/
theorem claim_C5_amended (handoffs : List HandoffRecord)
    (memories : List MemoryRecord) (input : String) :
    (∀ r, resolve_handoff handoffs input = .ok r →
      handoffs.find? (fun h => matches_any_candidate h.id
        (build_prefix_candidates input "hf-" "h_")) = some r) ∧
    (∀ r, show_memory memories input = .ok r →
      memories.find? (fun m => m.id == r.id) = some r) := by
  constructor
  · intro r hok
    exact resolveCore_ok_find hok
  · intro r hok
    rw [show_memory] at hok
    cases hres : resolve_memory_id memories input with
    | error e =>
      simp only [hres] at hok
      exact Except.noConfusion hok
    | ok id =>
      simp only [hres] at hok
      cases hfind : memories.find? (fun m => m.id == id) with
      | none =>
        simp only [hfind] at hok
        exact Except.noConfusion hok
      | some r' =>
        simp only [hfind, Except.ok.injEq] at hok
        obtain rfl : r' = r := hok
        have hpred := List.find?_some hfind
        have hid : r'.id = id := by simpa using hpred
        rw [hid]
        exact hfind

/-- C5 amended witness: on the duplicated-id store, the resolver returns
exactly the first stored row. -/
theorem claim_C5_amended_witness :
    [sampleHandoff "hf-x1" "1" none "cr-a" 5,
      sampleHandoff "hf-x1" "2" none "cr-a" 5].find?
      (fun h => matches_any_candidate h.id
        (build_prefix_candidates "hf-x1" "hf-" "h_")) =
      some (sampleHandoff "hf-x1" "1" none "cr-a" 5) := by
  refine (claim_C5_amended [sampleHandoff "hf-x1" "1" none "cr-a" 5,
      sampleHandoff "hf-x1" "2" none "cr-a" 5] [] "hf-x1").1
    (sampleHandoff "hf-x1" "1" none "cr-a" 5) ?_
  unfold resolve_handoff
  rw [resolveCore_eq]
  rfl

theorem strStartsWith_empty (s : String) : strStartsWith s "" = true := by
  unfold strStartsWith
  rw [show ("" : String).data = [] from rfl]
  simp [List.isPrefixOf]

theorem matches_empty_input (canonical legacy id : String) :
    matches_any_candidate id (build_prefix_candidates "" canonical legacy)
      = true := by
  have hc : (!(strContains "" '-') && !(strContains "" '_')) = true := rfl
  have h0 : asciiLower "" = "" := rfl
  unfold build_prefix_candidates
  rw [hc]
  simp only [if_true, matches_any_candidate, List.any_cons, List.any_nil,
    Bool.or_eq_true]
  exact Or.inl (h0 ▸ strStartsWith_empty (asciiLower id))

/-- C9: the empty input is never rejected: the empty candidate prefix makes
every record match, so a singleton store resolves to its record, and any
two records with distinct ids make the empty input ambiguous. -/
theorem claim_C9 (memories : List MemoryRecord) (m m1 m2 : MemoryRecord)
    (h1 : m1 ∈ memories) (h2 : m2 ∈ memories) (hne : m1.id ≠ m2.id) :
    matches_any_candidate m.id (build_prefix_candidates "" "cr-" "c_")
      = true ∧
    resolve_memory_id [m] "" = .ok m.id ∧
    resolve_memory_id memories "" = .error .ambiguous := by
  refine ⟨matches_empty_input _ _ _, ?_, ?_⟩
  · unfold resolve_memory_id
    rw [resolveCore_eq]
    have hm := matches_empty_input "cr-" "c_" m.id
    simp [List.filter_cons, hm, dedupFirstBy, Except.map]
  · rw [resolve_memory_id, except_map_error_iff,
      resolveCore_ambiguous_iff]
    exact ⟨m1, h1, m2, h2, matches_empty_input _ _ _,
      matches_empty_input _ _ _, hne⟩

/-- C9 witness: two concrete records with distinct ids make the empty
input ambiguous (and the singleton store resolves). -/
theorem claim_C9_witness :
    resolve_memory_id [sampleMemory "cr-aaaa" "1"] "" = .ok "cr-aaaa" ∧
    resolve_memory_id [sampleMemory "cr-aaaa" "1", sampleMemory "cr-bbbb" "2"]
      "" = .error .ambiguous := by
  have h := claim_C9
    [sampleMemory "cr-aaaa" "1", sampleMemory "cr-bbbb" "2"]
    (sampleMemory "cr-aaaa" "1")
    (sampleMemory "cr-aaaa" "1") (sampleMemory "cr-bbbb" "2")
    (by decide) (by decide) (by decide)
  exact ⟨h.2.1, h.2.2⟩

/-- Full description of a successful `handoff_mark`: the window is
positive, the target is the newest memory, `suggestedWindow` is the
requested window, and `from` is chained from the previous checkpoint or
computed by first-checkpoint windowing. -/
theorem handoff_mark_ok_spec {memories : List MemoryRecord}
    {handoffs : List HandoffRecord} {window : Nat} {newId ts cwd : String}
    {gb gh : Option String} {r : HandoffRecord}
    (h : handoff_mark memories handoffs window newId ts cwd gb gh = .ok r) :
    window ≠ 0 ∧
    ∃ latest, latest_memory memories = some latest ∧
      r.to_memory_id = latest.id ∧ r.suggested_window = window ∧
      r.id = newId ∧
      ((∃ prev, latest_handoff handoffs = some prev ∧
          prev.to_memory_id ≠ latest.id ∧
          r.from_memory_id = some prev.to_memory_id) ∨
        (latest_handoff handoffs = none ∧
          r.from_memory_id =
            if hlen : window < (sortMemoriesDesc memories).length
            then some (((sortMemoriesDesc memories).get ⟨window, hlen⟩).id)
            else none)) := by
  rw [handoff_mark] at h
  by_cases hw : (window == 0) = true
  · rw [if_pos hw] at h
    exact Except.noConfusion h
  · rw [if_neg hw] at h
    refine ⟨by simpa using hw, ?_⟩
    cases hlm : latest_memory memories with
    | none =>
      simp only [hlm] at h
      exact Except.noConfusion h
    | some latest =>
      simp only [hlm] at h
      cases hlh : latest_handoff handoffs with
      | some prev =>
        simp only [hlh] at h
        by_cases hto : (prev.to_memory_id == latest.id) = true
        · rw [if_pos hto] at h
          exact Except.noConfusion h
        · rw [if_neg hto] at h
          have hr : r =
              { id := newId,
                ts_utc := ts,
                from_memory_id := some prev.to_memory_id,
                to_memory_id := latest.id,
                suggested_window := window,
                cwd := cwd,
                git_branch := gb,
                git_head := gh } := by
            injection h with h'
            exact h'.symm
          subst hr
          exact ⟨latest, rfl, rfl, rfl, rfl,
            Or.inl ⟨prev, rfl, by simpa using hto, rfl⟩⟩
      | none =>
        simp only [hlh] at h
        have hr : r =
            { id := newId,
              ts_utc := ts,
              from_memory_id :=
                (if hlen : window < (sortMemoriesDesc memories).length
                then some (((sortMemoriesDesc memories).get ⟨window, hlen⟩).id)
                else none),
              to_memory_id := latest.id,
              suggested_window := window,
              cwd := cwd,
              git_branch := gb,
              git_head := gh } := by
          injection h with h'
          exact h'.symm
        subst hr
        exact ⟨latest, rfl, rfl, rfl, rfl, Or.inr ⟨rfl, rfl⟩⟩

/-- C2: a successful mark chains `from` to the previous checkpoint's `to`
when one exists; otherwise `from` is the id of the entry at 0-based index
`window` in the newest-first ordering when the store has more than
`window` entries, and absent when it has at most `window` entries. -/
theorem claim_C2 (memories : List MemoryRecord)
    (handoffs : List HandoffRecord) (window : Nat) (newId ts cwd : String)
    (gb gh : Option String) (r : HandoffRecord)
    (hok : handoff_mark memories handoffs window newId ts cwd gb gh = .ok r) :
    (∀ prev, latest_handoff handoffs = some prev →
      r.from_memory_id = some prev.to_memory_id) ∧
    (latest_handoff handoffs = none →
      (memories.length ≤ window → r.from_memory_id = none) ∧
      (window < memories.length →
        ∃ hlen : window < (sortMemoriesDesc memories).length,
          r.from_memory_id =
            some (((sortMemoriesDesc memories).get ⟨window, hlen⟩).id))) := by
  obtain ⟨-, latest, hlm, -, -, -, hcase⟩ := handoff_mark_ok_spec hok
  rcases hcase with ⟨prev, hprev, hne, hfrom⟩ | ⟨hnone, hfrom⟩
  · constructor
    · intro prev' hprev'
      rw [hprev] at hprev'
      obtain rfl := Option.some.inj hprev'
      exact hfrom
    · intro hn
      rw [hprev] at hn
      exact Option.noConfusion hn
  · constructor
    · intro prev' hprev'
      rw [hnone] at hprev'
      exact Option.noConfusion hprev'
    · intro _
      constructor
      · intro hle
        rw [hfrom, dif_neg]
        rw [length_sortMemoriesDesc]
        omega
      · intro hlt
        have hlen : window < (sortMemoriesDesc memories).length := by
          rw [length_sortMemoriesDesc]
          exact hlt
        exact ⟨hlen, by rw [hfrom, dif_pos hlen]⟩

/-- For a memory list, the first-checkpoint `from` computation equals an
index lookup through `get?`. -/
theorem dite_get_eq_get? (l : List MemoryRecord) (n : Nat) :
    (if h : n < l.length then some ((l.get ⟨n, h⟩).id) else none) =
      (l.get? n).map (fun m => m.id) := by
  by_cases h : n < l.length
  · rw [dif_pos h, List.get?_eq_get h]
    rfl
  · rw [dif_neg h, List.get?_eq_none.mpr (by omega)]
    rfl

/-- C2 witness: two entries (newest first), no previous checkpoint,
window 1: `from` is the id of the entry at sorted index 1. -/
theorem claim_C2_witness :
    ∃ r, handoff_mark
        [sampleMemory "cr-bbbb" "2", sampleMemory "cr-aaaa" "1"] [] 1
        "hf-new" "3" "." none none = .ok r ∧
      r.from_memory_id = some "cr-aaaa" := by
  have hsort : sortMemoriesDesc
      [sampleMemory "cr-bbbb" "2", sampleMemory "cr-aaaa" "1"] =
      [sampleMemory "cr-bbbb" "2", sampleMemory "cr-aaaa" "1"] :=
    sortMemoriesDesc_of_sorted
      (List.Pairwise.cons
        (fun a' ha' => by
          rcases List.mem_singleton.mp ha' with rfl
          decide)
        (List.Pairwise.cons
          (fun a' ha' => absurd ha' (List.not_mem_nil a'))
          List.Pairwise.nil))
  have hlmem : latest_memory
      [sampleMemory "cr-bbbb" "2", sampleMemory "cr-aaaa" "1"] =
      some (sampleMemory "cr-bbbb" "2") := by
    rw [latest_memory, hsort]
    rfl
  have hlhand : latest_handoff ([] : List HandoffRecord) = none := by
    rw [latest_handoff, sortHandoffsDesc, List.mergeSort_nil]
    rfl
  have hmark : handoff_mark
      [sampleMemory "cr-bbbb" "2", sampleMemory "cr-aaaa" "1"] [] 1
      "hf-new" "3" "." none none =
      .ok { id := "hf-new", ts_utc := "3",
            from_memory_id := some "cr-aaaa",
            to_memory_id := "cr-bbbb", suggested_window := 1,
            cwd := ".", git_branch := none, git_head := none } := by
    rw [handoff_mark, if_neg (by decide)]
    simp only [hlmem, hlhand]
    rw [dite_get_eq_get?, hsort]
    rfl
  have h := claim_C2
    [sampleMemory "cr-bbbb" "2", sampleMemory "cr-aaaa" "1"] [] 1
    "hf-new" "3" "." none none _ hmark
  obtain ⟨hlen, hfrom⟩ := (h.2 hlhand).2 (by decide)
  have hget : (sortMemoriesDesc
      [sampleMemory "cr-bbbb" "2", sampleMemory "cr-aaaa" "1"]).get? 1 =
      some ((sortMemoriesDesc
        [sampleMemory "cr-bbbb" "2", sampleMemory "cr-aaaa" "1"]).get
          ⟨1, hlen⟩) := List.get?_eq_get hlen
  nth_rewrite 1 [hsort] at hget
  have hval : some (sampleMemory "cr-aaaa" "1") =
      some ((sortMemoriesDesc
        [sampleMemory "cr-bbbb" "2", sampleMemory "cr-aaaa" "1"]).get
          ⟨1, hlen⟩) := by
    rw [← hget]
    rfl
  have hrec : (sortMemoriesDesc
      [sampleMemory "cr-bbbb" "2", sampleMemory "cr-aaaa" "1"]).get
        ⟨1, hlen⟩ = sampleMemory "cr-aaaa" "1" :=
    (Option.some.inj hval).symm
  refine ⟨_, hmark, ?_⟩
  rw [hfrom, hrec]
  rfl

/-- C6: mark fails exactly when the window is 0, or no memories exist, or
the previous checkpoint's `to` equals the id of the newest memory by
timestamp; otherwise it returns a checkpoint with `suggestedWindow` equal
to the requested window. -/
theorem claim_C6 (memories : List MemoryRecord)
    (handoffs : List HandoffRecord) (window : Nat) (newId ts cwd : String)
    (gb gh : Option String) :
    ((∃ e, handoff_mark memories handoffs window newId ts cwd gb gh =
        .error e) ↔
      window = 0 ∨ memories = [] ∨
        ∃ prev latest, latest_handoff handoffs = some prev ∧
          latest_memory memories = some latest ∧ latest ∈ memories ∧
          (∀ x ∈ memories, strLe x.ts_utc latest.ts_utc = true) ∧
          prev.to_memory_id = latest.id) ∧
    (∀ r, handoff_mark memories handoffs window newId ts cwd gb gh = .ok r →
      r.suggested_window = window) := by
  constructor
  · constructor
    · rintro ⟨e, he⟩
      rw [handoff_mark] at he
      by_cases hw : (window == 0) = true
      · exact Or.inl (by simpa using hw)
      · rw [if_neg hw] at he
        cases hlm : latest_memory memories with
        | none =>
          exact Or.inr (Or.inl ((latest_memory_eq_none_iff memories).mp hlm))
        | some latest =>
          simp only [hlm] at he
          cases hlh : latest_handoff handoffs with
          | none =>
            simp only [hlh] at he
            exact Except.noConfusion he
          | some prev =>
            simp only [hlh] at he
            by_cases hto : (prev.to_memory_id == latest.id) = true
            · have hmax := latest_memory_max hlm
              exact Or.inr (Or.inr ⟨prev, latest, rfl, rfl, hmax.1, hmax.2,
                by simpa using hto⟩)
            · rw [if_neg hto] at he
              exact Except.noConfusion he
    · intro h
      by_cases hw : (window == 0) = true
      · exact ⟨.windowZero, by rw [handoff_mark, if_pos hw]⟩
      · rcases h with hw0 | hmem | ⟨prev, latest, hprev, hlatest, -, -, heq⟩
        · exact absurd (by simpa using hw0) hw
        · refine ⟨.noMemories, ?_⟩
          rw [handoff_mark, if_neg hw,
            (latest_memory_eq_none_iff memories).mpr hmem]
        · refine ⟨.noNewMemories, ?_⟩
          rw [handoff_mark, if_neg hw]
          simp only [hlatest, hprev]
          rw [if_pos (by simpa using heq)]
  · intro r hok
    obtain ⟨-, latest, hlm, hto, hsw, hid, hcase⟩ := handoff_mark_ok_spec hok
    exact hsw

/-- C6 witness: marking with no memories fails; marking the two-entry
store with window 1 succeeds with `suggestedWindow` 1. -/
theorem claim_C6_witness :
    (∃ e, handoff_mark [] [] 1 "hf-new" "3" "." none none = .error e) := by
  exact (claim_C6 [] [] 1 "hf-new" "3" "." none none).1.mpr
    (Or.inr (Or.inl rfl))

/-- C1: whenever the checkpoint's `to` id resolves to a stored row,
opening computes the slice as exactly the rows with timestamp at most the
`to` row's and (when a `from` timestamp resolves) strictly above the
`from` row's; the slice is sorted newest first, and the shown count is
`min` of the limit override (default `suggestedWindow`) and slice size. -/
theorem claim_C1 (memories : List MemoryRecord) (handoff : HandoffRecord)
    (limit : Option Nat) (toRec : MemoryRecord)
    (hto : memories.find? (fun m => m.id == handoff.to_memory_id) =
      some toRec) :
    handoff_open memories handoff limit =
      .ok { totalCount := (openSliceFiltered memories toRec.ts_utc
              (openFromTs memories handoff)).length,
            shownCount := min (limit.getD handoff.suggested_window)
              (openSliceFiltered memories toRec.ts_utc
                (openFromTs memories handoff)).length,
            rows := (openSliceFiltered memories toRec.ts_utc
              (openFromTs memories handoff)).take
                (limit.getD handoff.suggested_window) } ∧
    (∀ fid fRec, handoff.from_memory_id = some fid →
      memories.find? (fun m => m.id == fid) = some fRec →
      openFromTs memories handoff = some fRec.ts_utc) ∧
    (∀ m, m ∈ openSliceFiltered memories toRec.ts_utc
        (openFromTs memories handoff) ↔
      m ∈ memories ∧ strLe m.ts_utc toRec.ts_utc = true ∧
      ∀ fts ∈ openFromTs memories handoff, strLt fts m.ts_utc = true) ∧
    (openSliceFiltered memories toRec.ts_utc
      (openFromTs memories handoff)).Pairwise
        (fun a b => strLe b.ts_utc a.ts_utc = true) := by
  refine ⟨?_, ?_, ?_, ?_⟩
  · rw [handoff_open]
    simp only [hto]
    rw [Nat.min_comm]
  · intro fid fRec h1 h2
    rw [openFromTs, h1]
    show ((memories.find? (fun m => m.id == fid)).map
      (fun m => m.ts_utc)) = some fRec.ts_utc
    rw [h2]
    rfl
  · intro m
    unfold openSliceFiltered
    rw [List.mem_mergeSort, List.mem_filter]
    cases hft : openFromTs memories handoff with
    | none =>
      simp [Bool.and_eq_true]
    | some fts =>
      simp [Bool.and_eq_true]
  · exact sortMemoriesDesc_pairwise
      (memories.filter (fun m =>
        strLe m.ts_utc toRec.ts_utc &&
        (match openFromTs memories handoff with
         | some ts => strLt ts m.ts_utc
         | none => true)))

/-- C1 witness: on a two-row store with a from-less checkpoint targeting
the newest row, the older row belongs to the computed slice. -/
theorem claim_C1_witness :
    sampleMemory "cr-aaaa" "1" ∈ openSliceFiltered
      [sampleMemory "cr-bbbb" "2", sampleMemory "cr-aaaa" "1"]
      (sampleMemory "cr-bbbb" "2").ts_utc
      (openFromTs [sampleMemory "cr-bbbb" "2", sampleMemory "cr-aaaa" "1"]
        (sampleHandoff "hf-xyz1" "3" none "cr-bbbb" 10)) := by
  have h := claim_C1
    [sampleMemory "cr-bbbb" "2", sampleMemory "cr-aaaa" "1"]
    (sampleHandoff "hf-xyz1" "3" none "cr-bbbb" 10) none
    (sampleMemory "cr-bbbb" "2") (by decide)
  refine (h.2.2.1 (sampleMemory "cr-aaaa" "1")).mpr
    ⟨by decide, by decide, ?_⟩
  intro fts hft
  have : openFromTs [sampleMemory "cr-bbbb" "2", sampleMemory "cr-aaaa" "1"]
      (sampleHandoff "hf-xyz1" "3" none "cr-bbbb" 10) = none := rfl
  rw [this] at hft
  exact absurd hft (by simp)

/-- C10: opening with an explicit display-limit override of 0 succeeds
(no window validation, unlike mark): it reports a shown count of 0, the
true slice size as the total, and prints no rows; marking with window 0
fails with the window validation error. -/
theorem claim_C10 (memories : List MemoryRecord) (handoff : HandoffRecord)
    (toRec : MemoryRecord)
    (hto : memories.find? (fun m => m.id == handoff.to_memory_id) =
      some toRec)
    (mems2 : List MemoryRecord) (hfs : List HandoffRecord)
    (newId ts cwd : String) (gb gh : Option String) :
    (∃ out, handoff_open memories handoff (some 0) = .ok out ∧
      out.shownCount = 0 ∧ out.rows = [] ∧
      out.totalCount = (openSliceFiltered memories toRec.ts_utc
        (openFromTs memories handoff)).length) ∧
    handoff_mark mems2 hfs 0 newId ts cwd gb gh = .error .windowZero := by
  constructor
  · refine ⟨{ totalCount :=
                (openSliceFiltered memories toRec.ts_utc
                  (openFromTs memories handoff)).length,
              shownCount := 0,
              rows := [] }, ?_, rfl, rfl, rfl⟩
    rw [handoff_open]
    simp only [hto]
    simp
  · rw [handoff_mark]
    rfl

/-- C10 witness: on the concrete two-row store, an override of 0 yields a
shown count of 0 and no rows, while mark with window 0 errors. -/
theorem claim_C10_witness :
    (∃ out, handoff_open
        [sampleMemory "cr-bbbb" "2", sampleMemory "cr-aaaa" "1"]
        (sampleHandoff "hf-xyz1" "3" none "cr-bbbb" 10) (some 0) =
        .ok out ∧ out.shownCount = 0 ∧ out.rows = []) ∧
    handoff_mark [] [] 0 "hf-new" "3" "." none none =
      .error .windowZero := by
  have h := claim_C10
    [sampleMemory "cr-bbbb" "2", sampleMemory "cr-aaaa" "1"]
    (sampleHandoff "hf-xyz1" "3" none "cr-bbbb" 10)
    (sampleMemory "cr-bbbb" "2") (by decide)
    [] [] "hf-new" "3" "." none none
  obtain ⟨⟨out, h1, h2, h3, -⟩, h4⟩ := h
  exact ⟨⟨out, h1, h2, h3⟩, h4⟩

/-- C7 counterexample: with the uppercase prefix `CR` and existing id
`cr-0000`, the generator returns `CR-0000` on the all-zero randomness
stream — an id case-insensitively equal to the existing `cr-0000`
(the membership test compares the raw candidate against the lowercased
set, so a non-lowercase prefix defeats it). -/
theorem claim_C7_counterexample :
    next_short_id (fun _ => 0) ["cr-0000"] "CR" = some "CR-0000" ∧
    asciiLower "CR-0000" = asciiLower "cr-0000" ∧
    ("CR-0000" : String) ≠ "cr-0000" := by
  refine ⟨rfl, rfl, by decide⟩

/-- C7 amended: whenever generation returns, the identifier is
prefix ++ "-" ++ a base-36 suffix of length at least 4 drawn from the
lowercase alphabet, and it is never a member of the lowercased
existing-id set; when the prefix is its own ASCII lowercasing (as for
both call sites, `cr` and `hf`), the result is not case-insensitively
equal to any existing id.  The suffix length grows by one after every 64
consecutive failed draws at the current length. -/
theorem claim_C7_amended (rng : Nat → Nat) (existing_ids used : List String)
    (pfx s : String) (fuel pos len : Nat)
    (hok : next_short_id rng existing_ids pfx = some s) :
    (∃ suffix, s = pfx ++ "-" ++ suffix ∧ 4 ≤ suffix.length ∧
      (∀ ch ∈ suffix.data, ch ∈ base36Digits) ∧
      s ∉ usedLowered existing_ids ∧
      (asciiLower pfx = pfx →
        ∀ e ∈ existing_ids, asciiLower s ≠ asciiLower e)) ∧
    (try_at_len rng used pfx 64 pos len = none →
      next_short_id_fuel rng used pfx (fuel + 1) pos len =
        next_short_id_fuel rng used pfx fuel (pos + 64 * len) (len + 1)) := by
  constructor
  · simp only [next_short_id] at hok
    obtain ⟨⟨q, n, hn, hq⟩, hfresh⟩ := next_short_id_fuel_some hok
    refine ⟨random_base36 rng q n, hq, ?_, random_base36_chars rng q n,
      hfresh, ?_⟩
    · rw [length_random_base36]
      exact hn
    · intro hp e he hcontra
      have hsl : asciiLower s = s := by
        rw [hq, asciiLower_append, asciiLower_append, hp,
          asciiLower_random_base36]
        rfl
      refine hfresh ?_
      rw [usedLowered, List.mem_map]
      refine ⟨e, he, ?_⟩
      rw [← hcontra]
      exact hsl
  · intro hnone
    rw [next_short_id_fuel, hnone]

/-- C7 amended witness: with prefix `cr` and existing id `cr-0000`, the
all-zero stream fails 64 draws at length 4 and succeeds at length 5 with
`cr-00000`, which is fresh and case-insensitively distinct from the
existing id. -/
theorem claim_C7_amended_witness :
    ∃ suffix, ("cr-00000" : String) = "cr" ++ "-" ++ suffix ∧
      4 ≤ suffix.length ∧ (∀ ch ∈ suffix.data, ch ∈ base36Digits) ∧
      ("cr-00000" : String) ∉ usedLowered ["cr-0000"] ∧
      (asciiLower "cr" = "cr" →
        ∀ e ∈ ["cr-0000"], asciiLower "cr-00000" ≠ asciiLower e) :=
  (claim_C7_amended (fun _ => 0) ["cr-0000"] [] "cr" "cr-00000" 0 0 0
    rfl).1

/-- C8: for every existing-id set and every randomness stream, the
generation loop terminates — the computable fuel bound in
`next_short_id` suffices — and the returned candidate is fresh: there is
no failure case. -/
theorem claim_C8 (rng : Nat → Nat) (existing_ids : List String)
    (pfx : String) :
    ∃ s, next_short_id rng existing_ids pfx = some s ∧
      s ∉ usedLowered existing_ids := by
  obtain ⟨s, hs⟩ := Option.isSome_iff_exists.mp
    (next_short_id_isSome rng existing_ids pfx)
  refine ⟨s, hs, ?_⟩
  simp only [next_short_id] at hs
  exact (next_short_id_fuel_some hs).2

end Crumbs
